import Mathlib

/-!
Shallow embedding of the termshot rendering engine
(`internal/img/output.go` and its package-level configuration file), together
with theorems settling the specification claims about it.

Modelling conventions:
* Go `uint64` style words are `Nat` (all operations used are masks and
  shifts, which never leave the 64-bit range when the inputs are in range).
* Go `int` values that can take part in comparisons of the source
  (column counts, wrap counters, pixel rectangle coordinates) are `Int`.
* Go `float64` quantities (measured widths and heights, line spacing) are
  `ℚ`; every float operation performed by the source on them is exact
  rational arithmetic (sums of integer fixed-point values divided by 64,
  products with the line spacing), so `ℚ` is a faithful model.
* Go strings are `List Char` (`String.data` of a literal where convenient).
* Font faces (`golang.org/x/image/font.Face`) are external to the
  repository; per the spec they are modelled as a per-rune 26.6 fixed-point
  advance together with 26.6 height/ascent metrics, all nonnegative.
-/

namespace Termshot

/-- One styled rune of the content model: `bunt.ColoredRune` with its packed
64-bit style word (`Settings`) and the character (`Symbol`). -/
structure StyledRune where
  settings : Nat
  symbol : Char
deriving DecidableEq

/-- The cumulative content of a `Scaffold` (`bunt.String`, an ordered
sequence of colored runes). -/
abbrev Content := List StyledRune

/-- Model of an `imgfont.Face`: per-rune advance and the face metrics, all
in 26.6 fixed-point units (nonnegative in every real font, hence `Nat`). -/
structure Face where
  advance : Char → Nat
  height : Nat
  ascent : Nat

/-- The font style resolved for a rune by the draw loop. -/
inductive FontStyle where
  | regular
  | bold
  | italic
  | boldItalic
deriving DecidableEq

/-- The fields of `img.Scaffold` that the specified behaviour depends on:
the content stream, the fixed column count (`0` = use the detected terminal
width, which we carry explicitly as `termWidth`), the regular font face and
the line spacing. -/
structure Scaffold where
  content : Content
  columns : Int
  termWidth : Int
  regular : Face
  lineSpacing : ℚ

/-- `Scaffold.GetFixedColumns`: the fixed column value if set, otherwise
the detected terminal width. -/
def getFixedColumns (s : Scaffold) : Int :=
  if s.columns ≠ 0 then s.columns else s.termWidth

/-! ## Style-word decoding (the draw loop of `Scaffold.image`) -/

/-- Font-face resolution of the draw loop: `switch cr.Settings & 0x1C`
with cases `4` (bold), `8` (italic), `12` (bold-italic) and a default of
the regular face. -/
def resolveFontFace (settings : Nat) : FontStyle :=
  let m := settings &&& 0x1C
  if m = 4 then FontStyle.bold
  else if m = 8 then FontStyle.italic
  else if m = 12 then FontStyle.boldItalic
  else FontStyle.regular

/-- The draw loop strokes an underline exactly when
`cr.Settings & 0x1C == 16`. -/
def drawsUnderline (settings : Nat) : Bool :=
  settings &&& 0x1C == 16

/-- Foreground RGB decoding of the draw loop:
`(Settings>>8)&0xFF, (Settings>>16)&0xFF, (Settings>>24)&0xFF`. -/
def decodeFgRGB (settings : Nat) : Nat × Nat × Nat :=
  ((settings >>> 8) &&& 0xFF, (settings >>> 16) &&& 0xFF, (settings >>> 24) &&& 0xFF)

/-- Background RGB decoding of the draw loop:
`(Settings>>32)&0xFF, (Settings>>40)&0xFF, (Settings>>48)&0xFF`. -/
def decodeBgRGB (settings : Nat) : Nat × Nat × Nat :=
  ((settings >>> 32) &&& 0xFF, (settings >>> 40) &&& 0xFF, (settings >>> 48) &&& 0xFF)

/-- The style-class field of a style word, bits 2–4 (spec §3). -/
def styleClassOf (settings : Nat) : Nat :=
  settings / 4 % 8

/-- The font face the spec documents for each style-class value:
0→Regular, 1→Bold, 2→Italic, 3→BoldItalic, 4→Regular (plus underline),
out-of-range values fall back to Regular. -/
def specStyleFace : Nat → FontStyle
  | 1 => FontStyle.bold
  | 2 => FontStyle.italic
  | 3 => FontStyle.boldItalic
  | _ => FontStyle.regular

/-- Modelled from the spec: encoding of a foreground colour into a style
word — flag bit 0 set, R in the low byte of the bits 8–31 field, G in the
middle byte, B in the high byte. -/
def specEncodeFg (r g b : Nat) : Nat :=
  1 + r * 2 ^ 8 + g * 2 ^ 16 + b * 2 ^ 24

/-- Modelled from the spec: encoding of a background colour into a style
word — flag bit 1 set, R in the low byte of the bits 32–55 field, G in the
middle byte, B in the high byte. -/
def specEncodeBg (r g b : Nat) : Nat :=
  2 + r * 2 ^ 32 + g * 2 ^ 40 + b * 2 ^ 48

/-! ### Bit-level bridging lemmas -/

theorem and_mask28 (n : Nat) : n &&& 28 = n / 4 % 8 * 4 := by
  have h : n / 4 % 8 * 4 = ((n >>> 2) % 2 ^ 3) <<< 2 := by
    rw [Nat.shiftRight_eq_div_pow, Nat.shiftLeft_eq]
    norm_num
  rw [h]
  apply Nat.eq_of_testBit_eq
  intro i
  simp only [Nat.testBit_and, Nat.testBit_shiftLeft, Nat.testBit_mod_two_pow,
    Nat.testBit_shiftRight]
  match i with
  | 0 => simp [Nat.testBit]
  | 1 => simp [Nat.testBit]
  | 2 => simp [Nat.testBit]
  | 3 => simp [Nat.testBit]
  | 4 => simp [Nat.testBit]
  | j + 5 =>
    have h28 : Nat.testBit 28 (j + 5) = false := by
      apply Nat.testBit_lt_two_pow
      calc 28 < 2 ^ 5 := by norm_num
        _ ≤ 2 ^ (j + 5) := Nat.pow_le_pow_right (by norm_num) (by omega)
    simp [h28]

theorem and_mask255 (n : Nat) : n &&& 255 = n % 256 := by
  have h : (255 : Nat) = 2 ^ 8 - 1 := by norm_num
  rw [h, Nat.and_pow_two_sub_one_eq_mod]

theorem shiftRight_div (n k : Nat) : n >>> k = n / 2 ^ k :=
  Nat.shiftRight_eq_div_pow n k

/-! ## Content ingestion (`Scaffold.AddContent`)

The loop body of `AddContent`: increment a local counter, reset it on a
literal newline, and when it exceeds the effective column width reset it
and splice a synthetic `'\n'` rune (carrying the current rune's style word)
before the current rune. -/

/-- The wrapped fragment built by a single `AddContent` call (`tmp` in the
source), parameterised by the effective column width and the running local
counter. -/
def wrapFold (w : Int) : Content → Int → Content
  | [], _ => []
  | cr :: rest, counter =>
    let c1 := counter + 1
    let c2 := if cr.symbol = '\n' then 0 else c1
    if w < c2 then
      ⟨cr.settings, '\n'⟩ :: cr :: wrapFold w rest 0
    else
      cr :: wrapFold w rest c2

/-- `Scaffold.AddContent`: parse the input (external tokenizer, modelled as
the already-parsed fragment), wrap it with a counter starting at 0, and
append the result to the cumulative content. -/
def addContent (s : Scaffold) (parsed : Content) : Scaffold :=
  { s with content := s.content ++ wrapFold (getFixedColumns s) parsed 0 }

/-- The same wrapping loop at the level of bare symbols. -/
def charWrap (w : Int) : List Char → Int → List Char
  | [], _ => []
  | ch :: rest, counter =>
    let c1 := counter + 1
    let c2 := if ch = '\n' then 0 else c1
    if w < c2 then
      '\n' :: ch :: charWrap w rest 0
    else
      ch :: charWrap w rest c2

theorem wrapFold_map_symbol (w : Int) (l : Content) (c : Int) :
    (wrapFold w l c).map StyledRune.symbol = charWrap w (l.map StyledRune.symbol) c := by
  induction l generalizing c with
  | nil => rfl
  | cons cr rest ih =>
    simp only [wrapFold, charWrap, List.map_cons]
    by_cases hnl : cr.symbol = '\n' <;> simp only [hnl, if_pos, if_neg, ite_true, ite_false] <;>
      split <;> simp [ih, hnl]

/-! ## Line splitting and layout measurement (`Scaffold.measureContent`) -/

/-- Model of Go `strings.Split(s, "\n")` on rune lists: split into the
(always nonempty) list of newline-separated segments. -/
def lines1 : List Char → List (List Char)
  | [] => [[]]
  | c :: rest =>
    if c = '\n' then [] :: lines1 rest
    else
      match lines1 rest with
      | [] => [[c]]
      | h :: t => (c :: h) :: t

/-- Model of Go `strings.TrimSuffix(s, "\n")`: drop one trailing newline
if present. -/
def trimNewline (l : List Char) : List Char :=
  if l.getLast? = some '\n' then l.dropLast else l

/-- Model of `imgfont.Drawer.MeasureString` for a monospace-style face:
the summed 26.6 fixed-point advance of the runes. -/
def measureString (face : Face) (l : List Char) : Nat :=
  (l.map face.advance).sum

/-- `Scaffold.fontHeight`: the regular face's `Metrics().Height >> 6`,
converted to `float64`. -/
def Scaffold.fontHeight (s : Scaffold) : ℚ :=
  ((s.regular.height >>> 6 : Nat) : ℚ)

/-- The symbols of the scaffold's content. -/
def Scaffold.symbols (s : Scaffold) : List Char :=
  s.content.map StyledRune.symbol

/-- The lines `measureContent` works on: the symbols, with a single
trailing newline dropped, split on `'\n'`. -/
def Scaffold.contentLines (s : Scaffold) : List (List Char) :=
  lines1 (trimNewline s.symbols)

/-- `Scaffold.measureContent`: width from the longest line (unlimited
columns) or a filler-glyph row (fixed columns); height
`fontHeight * ((lineCount - 1) * lineSpacing + 1)`. -/
def Scaffold.measureContent (s : Scaffold) : ℚ × ℚ :=
  let lines := s.contentLines
  let width : ℚ :=
    if s.columns = 0 then
      lines.foldl (fun w line => max w ((measureString s.regular line >>> 6 : Nat) : ℚ)) 0
    else
      ((measureString s.regular (List.replicate (getFixedColumns s).toNat 'a') >>> 6 : Nat) : ℚ)
  let height : ℚ := s.fontHeight * (((lines.length - 1 : Nat) : ℚ) * s.lineSpacing + 1)
  (width, height)

/-- `Scaffold.WriteRaw` writes `s.content.String()`.
Modelled from the spec: the external `bunt.String` rendering is specified
as "a raw-text passthrough that writes the stream's literal character
content", i.e. the symbols in order. -/
def Scaffold.writeRaw (s : Scaffold) : List Char :=
  s.content.map StyledRune.symbol

/-! ## Line-length structure of a wrapped fragment

Specification-side description of the line lengths produced by the
wrapping loop on newline-free input: the first segment has capacity
`cap` (the width minus the counter already consumed); every later segment
begins with the rune that triggered the previous wrap — that rune is
appended with the counter already reset to 0, so the segment runs for
`w + 1` runes. -/

/-- Lengths of the segments after the first synthetic break: chunks of
`w + 1` with a shorter final chunk. -/
def afterLens (w : Nat) (m : Nat) : List Nat :=
  if m ≤ w + 1 then [m]
  else (w + 1) :: afterLens w (m - (w + 1))
termination_by m
decreasing_by omega

/-- Lengths of all segments of a wrapped newline-free fragment of `n`
runes, when the first segment still has capacity `cap`. -/
def capLens (w cap n : Nat) : List Nat :=
  if n ≤ cap then [n] else cap :: afterLens w (n - cap)

theorem lines1_ne_nil (l : List Char) : lines1 l ≠ [] := by
  cases l with
  | nil => simp [lines1]
  | cons c rest =>
    simp only [lines1]
    split
    · simp
    · split <;> simp

theorem lines1_cons_newline (l : List Char) : lines1 ('\n' :: l) = [] :: lines1 l := by
  simp [lines1]

theorem lines1_cons_plain (c : Char) (l : List Char) (hc : c ≠ '\n') :
    ∃ h t, lines1 l = h :: t ∧ lines1 (c :: l) = (c :: h) :: t := by
  obtain ⟨h, t, hl⟩ : ∃ h t, lines1 l = h :: t := by
    cases hlt : lines1 l with
    | nil => exact absurd hlt (lines1_ne_nil l)
    | cons h t => exact ⟨h, t, rfl⟩
  refine ⟨h, t, hl, ?_⟩
  simp [lines1, hc, hl]

theorem capLens_cons (w cap n : Nat) : ∃ h t, capLens w cap n = h :: t := by
  unfold capLens
  split
  · exact ⟨n, [], rfl⟩
  · exact ⟨cap, afterLens w (n - cap), rfl⟩

theorem capLens_succ_of_eq (w cap n : Nat) (h : Nat) (t : List Nat)
    (hc : capLens w cap n = h :: t) :
    capLens w (cap + 1) (n + 1) = (h + 1) :: t := by
  unfold capLens at hc ⊢
  split at hc
  · obtain ⟨rfl, rfl⟩ : n = h ∧ ([] : List Nat) = t := by
      simpa using hc
    rw [if_pos (by omega)]
  · obtain ⟨rfl, rfl⟩ : cap = h ∧ afterLens w (n - cap) = t := by
      simpa using hc
    rw [if_neg (by omega)]
    have : n + 1 - (cap + 1) = n - cap := by omega
    rw [this]

theorem afterLens_succ_of_eq (w n : Nat) (h : Nat) (t : List Nat)
    (hc : capLens w w n = h :: t) :
    afterLens w (n + 1) = (h + 1) :: t := by
  unfold capLens at hc
  split at hc
  · obtain ⟨rfl, rfl⟩ : n = h ∧ ([] : List Nat) = t := by
      simpa using hc
    rw [afterLens, if_pos (by omega)]
  · obtain ⟨rfl, rfl⟩ : w = h ∧ afterLens w (n - w) = t := by
      simpa using hc
    rw [afterLens, if_neg (by omega)]
    have : n + 1 - (w + 1) = n - w := by omega
    rw [this]

/-- The generalised wrapping invariant: starting a newline-free fragment
with local counter `c ≤ w`, the line lengths of the wrapped output are
`capLens w (w - c)` of the fragment length. -/
theorem charWrap_lines_lengths (w : Nat) (l : List Char)
    (hplain : ∀ ch ∈ l, ch ≠ '\n') :
    ∀ c : Nat, c ≤ w →
      (lines1 (charWrap (w : Int) l (c : Int))).map List.length
        = capLens w (w - c) l.length := by
  induction l with
  | nil =>
    intro c hc
    simp [charWrap, lines1, capLens]
  | cons ch rest ih =>
    intro c hc
    have hch : ch ≠ '\n' := hplain ch (by simp)
    have hrest : ∀ x ∈ rest, x ≠ '\n' := fun x hx => hplain x (by simp [hx])
    simp only [charWrap, hch, ite_false, if_neg]
    by_cases hwc : (w : Int) < (c : Int) + 1
    · have hcw : c = w := by omega
      rw [if_pos hwc]
      have h0 : ((0 : Nat) : Int) = (0 : Int) := rfl
      rw [← h0]
      obtain ⟨h, t, hl, hcons⟩ :=
        lines1_cons_plain ch (charWrap (w : Int) rest ((0 : Nat) : Int)) hch
      rw [lines1_cons_newline, hcons]
      have ihr := ih hrest 0 (by omega)
      rw [hl] at ihr
      simp only [List.map_cons] at ihr ⊢
      have hafter := afterLens_succ_of_eq w rest.length h.length (t.map List.length) (by
        simpa [Nat.sub_zero] using ihr.symm)
      subst hcw
      simp only [List.length_cons, List.length_nil, Nat.sub_self, capLens]
      rw [if_neg (by omega)]
      simp only [Nat.sub_zero, hafter]
    · rw [if_neg hwc]
      have hcw : c + 1 ≤ w := by omega
      have hcast : ((c : Int) + 1) = ((c + 1 : Nat) : Int) := by push_cast; ring
      rw [hcast]
      obtain ⟨h, t, hl, hcons⟩ :=
        lines1_cons_plain ch (charWrap (w : Int) rest ((c + 1 : Nat) : Int)) hch
      rw [hcons]
      have ihr := ih hrest (c + 1) hcw
      rw [hl] at ihr
      simp only [List.map_cons] at ihr ⊢
      have hstep := capLens_succ_of_eq w (w - (c + 1)) rest.length h.length
        (t.map List.length) ihr.symm
      have hsub : w - (c + 1) + 1 = w - c := by omega
      rw [hsub] at hstep
      simp only [List.length_cons, hstep]

theorem lines1_length_eq_count (l : List Char) :
    (lines1 l).length = l.count '\n' + 1 := by
  induction l with
  | nil => simp [lines1]
  | cons c rest ih =>
    by_cases hc : c = '\n'
    · subst hc
      simp [lines1_cons_newline, ih, List.count_cons]
    · obtain ⟨h, t, hl, hcons⟩ := lines1_cons_plain c rest hc
      rw [hcons]
      rw [hl] at ih
      simp only [List.length_cons] at ih ⊢
      simp [List.count_cons, hc, ih]

theorem charWrap_ne_nil (w : Int) (ch : Char) (rest : List Char) (c : Int) :
    charWrap w (ch :: rest) c ≠ [] := by
  simp only [charWrap]
  split <;> split <;> simp

theorem getLast?_cons_charWrap (w : Int) (a ch2 : Char) (rest2 : List Char) (k : Int) :
    (a :: charWrap w (ch2 :: rest2) k).getLast? = (charWrap w (ch2 :: rest2) k).getLast? := by
  cases hcw : charWrap w (ch2 :: rest2) k with
  | nil => exact absurd hcw (charWrap_ne_nil w ch2 rest2 k)
  | cons b t => rw [List.getLast?_cons_cons]

theorem charWrap_getLast? (w : Int) (l : List Char) :
    ∀ c : Int, (charWrap w l c).getLast? = l.getLast? := by
  induction l with
  | nil => intro c; rfl
  | cons ch rest ih =>
    intro c
    simp only [charWrap]
    cases rest with
    | nil =>
      split <;> split <;> simp [charWrap]
    | cons ch2 rest2 =>
      rw [List.getLast?_cons_cons]
      split <;> split <;>
        first
          | rw [List.getLast?_cons_cons, getLast?_cons_charWrap, ih]
          | rw [getLast?_cons_charWrap, ih]

theorem afterLens_ne_nil (w m : Nat) : afterLens w m ≠ [] := by
  rw [afterLens]
  split <;> simp

theorem afterLens_dropLast (w : Nat) (m : Nat) :
    ∀ x ∈ (afterLens w m).dropLast, x = w + 1 := by
  induction m using Nat.strong_induction_on with
  | _ m ih =>
    rw [afterLens]
    split
    · simp
    · intro x hx
      rw [List.dropLast_cons_of_ne_nil (afterLens_ne_nil w (m - (w + 1)))] at hx
      rcases List.mem_cons.mp hx with h | h
      · exact h
      · exact ih (m - (w + 1)) (by omega) x h

/-! ## Canvas clipping (`Scaffold.WritePNG` with `clipCanvas`) -/

/-- Go `image.Rectangle` with min/max corner coordinates. -/
structure Rect where
  x0 : Int
  y0 : Int
  x1 : Int
  y1 : Int
deriving DecidableEq

/-- Go `image.Rect(x0, y0, x1, y1)`: swaps each axis into well-formed
order. -/
def mkRect (x0 y0 x1 y1 : Int) : Rect :=
  let p := if x1 < x0 then (x1, x0) else (x0, x1)
  let q := if y1 < y0 then (y1, y0) else (y0, y1)
  ⟨p.1, q.1, p.2, q.2⟩

/-- Go `Rectangle.Empty()`: no area. -/
def rectEmpty (r : Rect) : Bool :=
  r.x1 ≤ r.x0 || r.y1 ≤ r.y0

/-- Go `Rectangle.Intersect`: componentwise max/min, and the zero
rectangle when the result is empty.  `RGBA.SubImage` returns an image
whose bounds are exactly this intersection (the empty `&RGBA{}` has the
zero rectangle as bounds), so this is also the bounds of the clipped
sub-image. -/
def rectIntersect (r s : Rect) : Rect :=
  let t : Rect := ⟨max r.x0 s.x0, max r.y0 s.y0, min r.x1 s.x1, min r.y1 s.y1⟩
  if rectEmpty t then ⟨0, 0, 0, 0⟩ else t

/-- The rendered raster: dimensions and the RGBA quadruple returned by
`At(x, y).RGBA()` at each pixel. -/
structure Raster where
  width : Nat
  height : Nat
  pixel : Nat → Nat → Nat × Nat × Nat × Nat

/-- The bounds of the raster, `(0,0)-(width,height)`. -/
def Raster.bounds (r : Raster) : Rect :=
  ⟨0, 0, (r.width : Int), (r.height : Int)⟩

/-- The min/max accumulator of the clipping scan. -/
structure ClipState where
  minX : Int
  minY : Int
  maxX : Int
  maxY : Int
deriving DecidableEq

/-- `math.MaxInt` on a 64-bit platform. -/
def goMaxInt : Int := 2 ^ 63 - 1

/-- The initial accumulator: `minX, minY = math.MaxInt`, `maxX, maxY = 0`. -/
def clipInit : ClipState := ⟨goMaxInt, goMaxInt, 0, 0⟩

/-- A pixel is transparent iff all four channels are zero. -/
def transparentAt (r : Raster) (x y : Nat) : Bool :=
  r.pixel x y = (0, 0, 0, 0)

/-- One step of the scan: ignore transparent pixels, otherwise widen the
tracked bounds. -/
def scanPixel (r : Raster) (st : ClipState) (p : Nat × Nat) : ClipState :=
  if transparentAt r p.1 p.2 then st
  else
    { minX := if (p.1 : Int) < st.minX then (p.1 : Int) else st.minX
      minY := if (p.2 : Int) < st.minY then (p.2 : Int) else st.minY
      maxX := if st.maxX < (p.1 : Int) then (p.1 : Int) else st.maxX
      maxY := if st.maxY < (p.2 : Int) then (p.2 : Int) else st.maxY }

/-- The scan order of the double loop: `x` outer, `y` inner. -/
def scanPositions (r : Raster) : List (Nat × Nat) :=
  (List.range r.width).flatMap fun x => (List.range r.height).map fun y => (x, y)

/-- The full pixel scan of `WritePNG`'s clipping branch. -/
def clipScan (r : Raster) : ClipState :=
  (scanPositions r).foldl (scanPixel r) clipInit

/-- The bounds of the clipped image produced by `WritePNG` with
`clipCanvas` enabled: `imgRGBA.SubImage(image.Rect(minX, minY, maxX, maxY))`. -/
def clipRect (r : Raster) : Rect :=
  let st := clipScan r
  rectIntersect (mkRect st.minX st.minY st.maxX st.maxY) r.bounds

/-! ## Font resolution (`LoadFontsFromEmbedded`)

The claims concern the duplicate/missing error selection, which happens
before any TrueType parsing; the external parse/rasterize step is not
modelled and the resolver returns the four matched file names. -/

/-- A directory entry as seen by `fs.ReadDir`. -/
structure DirEntry where
  name : List Char
  isDir : Bool
deriving DecidableEq

/-- Errors of the resolution phase. -/
inductive FontErr where
  | duplicate (style existing newName : List Char)
  | missing (style dir : List Char)
deriving DecidableEq

/-- `strings.HasSuffix`. -/
def hasSuffix (s suffix : List Char) : Bool :=
  List.isSuffixOf suffix s

/-- The required style names, in scan order. -/
def fontStyles : List (List Char) :=
  ["Regular".data, "Bold".data, "Italic".data, "BoldItalic".data]

/-- `fmt.Sprintf("-%s.ttf", style)`. -/
def styleSuffix (style : List Char) : List Char :=
  '-' :: (style ++ ".ttf".data)

/-- Lookup in the `foundFiles` map (modelled as an association list in
insertion order). -/
def findStyle (st : List Char) : List (List Char × List Char) → Option (List Char)
  | [] => none
  | (k, v) :: rest => if k = st then some v else findStyle st rest

/-- The inner loop over the four styles for one directory entry:
a second file matching an already-found style is a duplicate error. -/
def scanStyles (nm : List Char) (sts : List (List Char))
    (found : List (List Char × List Char)) :
    Except FontErr (List (List Char × List Char)) :=
  match sts with
  | [] => Except.ok found
  | st :: rest =>
    if hasSuffix nm (styleSuffix st) then
      match findStyle st found with
      | some existing => Except.error (FontErr.duplicate st existing nm)
      | none => scanStyles nm rest (found ++ [(st, nm)])
    else scanStyles nm rest found

/-- The outer loop over directory entries: directories and non-`.ttf`
files are skipped. -/
def scanEntries : List DirEntry → List (List Char × List Char) →
    Except FontErr (List (List Char × List Char))
  | [], found => Except.ok found
  | e :: rest, found =>
    if e.isDir || !hasSuffix e.name ".ttf".data then scanEntries rest found
    else
      match scanStyles e.name fontStyles found with
      | Except.error err => Except.error err
      | Except.ok found2 => scanEntries rest found2

/-- The post-scan verification: the first style in order with no matching
file yields a missing-font error. -/
def checkMissing (found : List (List Char × List Char)) (dir : List Char) :
    List (List Char) → Except FontErr Unit
  | [] => Except.ok ()
  | st :: rest =>
    match findStyle st found with
    | none => Except.error (FontErr.missing st dir)
    | some _ => checkMissing found dir rest

/-- `LoadFontsFromEmbedded`, up to (and excluding) the external TrueType
parsing: resolve the four file names or fail. -/
def loadFontsFromEmbedded (entries : List DirEntry) (dir : List Char) :
    Except FontErr (List Char × List Char × List Char × List Char) :=
  match scanEntries entries [] with
  | Except.error e => Except.error e
  | Except.ok found =>
    match checkMissing found dir fontStyles with
    | Except.error e => Except.error e
    | Except.ok _ =>
      Except.ok ((findStyle "Regular".data found).getD [],
        (findStyle "Bold".data found).getD [],
        (findStyle "Italic".data found).getD [],
        (findStyle "BoldItalic".data found).getD [])

/-- An entry participates in the match for `st`: it survives the skip
check and carries the style suffix. -/
def entryMatches (st : List Char) (e : DirEntry) : Bool :=
  (!e.isDir && hasSuffix e.name ".ttf".data) && hasSuffix e.name (styleSuffix st)

theorem findStyle_append (st : List Char) (l l' : List (List Char × List Char)) :
    findStyle st (l ++ l') = (findStyle st l).or (findStyle st l') := by
  induction l with
  | nil => simp [findStyle]
  | cons kv rest ih =>
    obtain ⟨k, v⟩ := kv
    by_cases hk : k = st <;> simp [findStyle, hk, ih]

theorem scanStyles_error_duplicate (nm : List Char) (sts : List (List Char)) :
    ∀ found err, scanStyles nm sts found = Except.error err →
      ∃ a b c, err = FontErr.duplicate a b c := by
  induction sts with
  | nil => intro found err h; simp [scanStyles] at h
  | cons st rest ih =>
    intro found err h
    simp only [scanStyles] at h
    split at h
    · split at h
      · exact ⟨st, _, nm, (Except.error.injEq _ _).mp h.symm⟩
      · exact ih _ err h
    · exact ih _ err h

theorem scanStyles_mono (nm : List Char) (sts : List (List Char)) :
    ∀ found found', scanStyles nm sts found = Except.ok found' →
      ∀ st v, findStyle st found = some v → findStyle st found' = some v := by
  induction sts with
  | nil =>
    intro found found' h st v hv
    simp only [scanStyles, Except.ok.injEq] at h
    rwa [← h]
  | cons s rest ih =>
    intro found found' h st v hv
    simp only [scanStyles] at h
    split at h
    · split at h
      · simp at h
      · refine ih _ _ h st v ?_
        rw [findStyle_append, hv]
        rfl
    · exact ih _ _ h st v hv

theorem scanStyles_registers (nm : List Char) (sts : List (List Char)) :
    ∀ found found' st, st ∈ sts → hasSuffix nm (styleSuffix st) = true →
      scanStyles nm sts found = Except.ok found' →
      ∃ v, findStyle st found' = some v := by
  induction sts with
  | nil => intro _ _ _ h; simp at h
  | cons s rest ih =>
    intro found found' st hmem hsuf h
    simp only [scanStyles] at h
    rcases List.mem_cons.mp hmem with heq | hmem'
    · subst heq
      rw [if_pos hsuf] at h
      split at h
      · simp at h
      · rename_i hnone
        refine ⟨nm, scanStyles_mono nm rest _ _ h st nm ?_⟩
        rw [findStyle_append, hnone]
        simp [findStyle]
    · split at h
      · split at h
        · simp at h
        · exact ih _ _ st hmem' hsuf h
      · exact ih _ _ st hmem' hsuf h

theorem scanStyles_dup (nm : List Char) (sts : List (List Char)) :
    ∀ found st v, st ∈ sts → hasSuffix nm (styleSuffix st) = true →
      findStyle st found = some v →
      ∃ a b c, scanStyles nm sts found = Except.error (FontErr.duplicate a b c) := by
  induction sts with
  | nil => intro _ _ _ h; simp at h
  | cons s rest ih =>
    intro found st v hmem hsuf hv
    simp only [scanStyles]
    rcases List.mem_cons.mp hmem with heq | hmem'
    · subst heq
      rw [if_pos hsuf, hv]
      exact ⟨st, v, nm, rfl⟩
    · split
      · cases hfs : findStyle s found with
        | some ex => exact ⟨s, ex, nm, rfl⟩
        | none =>
          refine ih (found ++ [(s, nm)]) st v hmem' hsuf ?_
          rw [findStyle_append, hv]
          rfl
      · exact ih _ st v hmem' hsuf hv

theorem scanEntries_error_duplicate :
    ∀ (entries : List DirEntry) found err,
      scanEntries entries found = Except.error err →
      ∃ a b c, err = FontErr.duplicate a b c := by
  intro entries
  induction entries with
  | nil => intro found err h; simp [scanEntries] at h
  | cons e rest ih =>
    intro found err h
    simp only [scanEntries] at h
    split at h
    · exact ih _ err h
    · split at h
      · rename_i herr
        cases h
        exact scanStyles_error_duplicate e.name fontStyles found _ herr
      · exact ih _ err h

theorem scanEntries_mono :
    ∀ (entries : List DirEntry) found found',
      scanEntries entries found = Except.ok found' →
      ∀ st v, findStyle st found = some v → ∃ v', findStyle st found' = some v' := by
  intro entries
  induction entries with
  | nil =>
    intro found found' h st v hv
    simp only [scanEntries, Except.ok.injEq] at h
    exact ⟨v, by rwa [← h]⟩
  | cons e rest ih =>
    intro found found' h st v hv
    simp only [scanEntries] at h
    split at h
    · exact ih _ _ h st v hv
    · split at h
      · simp at h
      · rename_i f2 hok
        exact ih _ _ h st _ (scanStyles_mono e.name fontStyles found f2 hok st v hv)

theorem scanEntries_dup :
    ∀ (entries : List DirEntry) found st v (e : DirEntry),
      st ∈ fontStyles → findStyle st found = some v →
      e ∈ entries → entryMatches st e = true →
      ∃ a b c, scanEntries entries found = Except.error (FontErr.duplicate a b c) := by
  intro entries
  induction entries with
  | nil => intro _ _ _ _ _ _ h; simp at h
  | cons e1 rest ih =>
    intro found st v e hst hv hmem hmat
    simp only [scanEntries]
    split
    · rename_i hskip
      rcases List.mem_cons.mp hmem with heq | hmem'
      · subst heq
        simp only [entryMatches, Bool.and_eq_true, Bool.not_eq_true'] at hmat
        simp only [Bool.or_eq_true, Bool.not_eq_true'] at hskip
        rcases hskip with h1 | h2
        · rw [hmat.1.1] at h1; cases h1
        · rw [hmat.1.2] at h2; cases h2
      · exact ih found st v e hst hv hmem' hmat
    · rcases List.mem_cons.mp hmem with heq | hmem'
      · subst heq
        simp only [entryMatches, Bool.and_eq_true] at hmat
        obtain ⟨a, b, c, hdup⟩ := scanStyles_dup e.name fontStyles found st v hst hmat.2 hv
        rw [hdup]
        exact ⟨a, b, c, rfl⟩
      · cases hss : scanStyles e1.name fontStyles found with
        | error err =>
          obtain ⟨a, b, c, hc⟩ := scanStyles_error_duplicate e1.name fontStyles found err hss
          exact ⟨a, b, c, by rw [hc]⟩
        | ok f2 =>
          exact ih f2 st v e hst
            (scanStyles_mono e1.name fontStyles found f2 hss st v hv) hmem' hmat

theorem scanEntries_complete :
    ∀ (entries : List DirEntry) found found' st (e : DirEntry),
      st ∈ fontStyles → e ∈ entries → entryMatches st e = true →
      scanEntries entries found = Except.ok found' →
      ∃ v, findStyle st found' = some v := by
  intro entries
  induction entries with
  | nil => intro _ _ _ _ _ h; simp at h
  | cons e1 rest ih =>
    intro found found' st e hst hmem hmat h
    simp only [scanEntries] at h
    split at h
    · rename_i hskip
      rcases List.mem_cons.mp hmem with heq | hmem'
      · subst heq
        simp only [entryMatches, Bool.and_eq_true, Bool.not_eq_true'] at hmat
        simp only [Bool.or_eq_true, Bool.not_eq_true'] at hskip
        rcases hskip with h1 | h2
        · rw [hmat.1.1] at h1; cases h1
        · rw [hmat.1.2] at h2; cases h2
      · exact ih found found' st e hst hmem' hmat h
    · split at h
      · simp at h
      · rename_i f2 hok
        rcases List.mem_cons.mp hmem with heq | hmem'
        · subst heq
          simp only [entryMatches, Bool.and_eq_true] at hmat
          obtain ⟨v, hv⟩ :=
            scanStyles_registers e.name fontStyles found f2 st hst hmat.2 hok
          exact scanEntries_mono rest f2 found' h st v hv
        · exact ih f2 found' st e hst hmem' hmat h

theorem checkMissing_first (found : List (List Char × List Char)) (dir : List Char) :
    ∀ sts, (∃ st ∈ sts, findStyle st found = none) →
      ∃ st', st' ∈ sts ∧ findStyle st' found = none ∧
        checkMissing found dir sts = Except.error (FontErr.missing st' dir) := by
  intro sts
  induction sts with
  | nil => intro h; simp at h
  | cons s rest ih =>
    intro h
    cases hfs : findStyle s found with
    | none =>
      exact ⟨s, by simp, hfs, by simp [checkMissing, hfs]⟩
    | some v =>
      obtain ⟨st, hmem, hnone⟩ := h
      rcases List.mem_cons.mp hmem with heq | hmem'
      · subst heq; rw [hfs] at hnone; cases hnone
      · obtain ⟨st', hmem2, hnone2, hck⟩ := ih ⟨st, hmem', hnone⟩
        exact ⟨st', by simp [hmem2], hnone2, by simp [checkMissing, hfs, hck]⟩

/-! ## Demo objects used in witnesses and counterexamples -/

/-- A plain unstyled rune. -/
def plainRune (c : Char) : StyledRune := ⟨0, c⟩

/-- A monospace face with a 6px advance (`384` in 26.6 units) and a 14px
height (`896` in 26.6 units). -/
def face6x14 : Face := ⟨fun _ => 384, 896, 704⟩

/-! ## Claims -/

/-- Claim C4: the glyph renderer resolves the font face by the style-class
field as 0→Regular, 1→Bold, 2→Italic, 3→BoldItalic, 4→Regular plus an
underline stroke, and the out-of-range style-class values 5, 6 and 7
deterministically fall back to the Regular face. -/
theorem style_class_face_mapping (w : Nat) :
    resolveFontFace w = specStyleFace (styleClassOf w)
      ∧ drawsUnderline w = (styleClassOf w == 4) := by
  have hm : w &&& 0x1C = styleClassOf w * 4 := and_mask28 w
  have hlt : styleClassOf w < 8 := Nat.mod_lt _ (by norm_num)
  unfold resolveFontFace drawsUnderline
  rw [hm]
  set n := styleClassOf w with hn
  clear_value n
  interval_cases n <;> decide

/-- Claim C5: decoding the foreground (resp. background) colour from a
style word produced by encoding `(r, g, b)` into bits 8–31 (resp. 32–55)
with R in the low byte, G in the middle byte and B in the high byte of the
field returns exactly `(r, g, b)`. -/
theorem decode_encode_rgb (r g b : Nat) (hr : r < 256) (hg : g < 256) (hb : b < 256) :
    decodeFgRGB (specEncodeFg r g b) = (r, g, b)
      ∧ decodeBgRGB (specEncodeBg r g b) = (r, g, b) := by
  constructor
  · simp only [decodeFgRGB, specEncodeFg, and_mask255, shiftRight_div, Prod.mk.injEq]
    norm_num
    omega
  · simp only [decodeBgRGB, specEncodeBg, and_mask255, shiftRight_div, Prod.mk.injEq]
    norm_num
    omega

/-- Witness for C5 at `(r, g, b) = (12, 34, 56)`. -/
theorem decode_encode_rgb_witness :
    decodeFgRGB (specEncodeFg 12 34 56) = (12, 34, 56)
      ∧ decodeBgRGB (specEncodeBg 12 34 56) = (12, 34, 56) :=
  decode_encode_rgb 12 34 56 (by norm_num) (by norm_num) (by norm_num)

/-- The scaffold of the C6 scenario: content `"hello\n"`, unlimited
columns, a regular face with 6px advance and 14px height, line spacing 1. -/
def helloScaffold : Scaffold :=
  ⟨"hello\n".data.map plainRune, 0, 80, face6x14, 1⟩

/-- Claim C6: `measureContent` splits the symbols on `'\n'` after dropping
a single trailing newline and returns height
`fontHeight * ((lineCount - 1) * lineSpacing + 1)`; in the scenario with
content `"hello\n"`, unlimited columns, per-glyph advance 6px, font height
14px and line spacing 1 it returns width 30px and height 14px. -/
theorem measure_content_height (s : Scaffold) :
    (s.measureContent).2
        = s.fontHeight * (((s.contentLines.length - 1 : Nat) : ℚ) * s.lineSpacing + 1)
      ∧ helloScaffold.measureContent = (30, 14) := by
  constructor
  · rfl
  · have hw : (Scaffold.measureContent helloScaffold).1 = max 0 ((30 : Nat) : ℚ) := rfl
    have hh : (Scaffold.measureContent helloScaffold).2
        = ((14 : Nat) : ℚ) * (((0 : Nat) : ℚ) * 1 + 1) := rfl
    have hsplit : Scaffold.measureContent helloScaffold
        = ((Scaffold.measureContent helloScaffold).1,
           (Scaffold.measureContent helloScaffold).2) := rfl
    rw [hsplit, hw, hh]
    norm_num

/-- Claim C7: the line-wrap column counter of each `AddContent` call starts
at 0 regardless of previously ingested content: the appended fragment
depends only on the call's own input and the effective column width. -/
theorem addContent_wrap_independent (s₁ s₂ : Scaffold) (frag : Content)
    (hcols : getFixedColumns s₁ = getFixedColumns s₂) :
    (addContent s₁ frag).content.drop s₁.content.length
        = (addContent s₂ frag).content.drop s₂.content.length
      ∧ (addContent s₁ frag).content = s₁.content ++ wrapFold (getFixedColumns s₁) frag 0 := by
  constructor
  · simp only [addContent, List.drop_left, hcols]
  · rfl

/-- Witness for C7: two scaffolds with different prior content and the
same effective width append the same wrapped fragment. -/
theorem addContent_wrap_independent_witness :
    (addContent ⟨[plainRune 'x'], 3, 80, face6x14, 1⟩ [plainRune 'a']).content.drop 1
        = (addContent ⟨[], 3, 80, face6x14, 1⟩ [plainRune 'a']).content.drop 0
      ∧ (addContent ⟨[plainRune 'x'], 3, 80, face6x14, 1⟩ [plainRune 'a']).content
        = [plainRune 'x'] ++ wrapFold 3 [plainRune 'a'] 0 :=
  addContent_wrap_independent
    ⟨[plainRune 'x'], 3, 80, face6x14, 1⟩ ⟨[], 3, 80, face6x14, 1⟩ [plainRune 'a'] rfl

/-- Claim C10: `WriteRaw` writes exactly the symbols of the cumulative
content in order, which includes the synthetic `'\n'` runes inserted by
line wrapping, so the raw output of wrapped content is not byte-identical
to the originally ingested text. -/
theorem writeRaw_includes_synthetic_newlines :
    (∀ (s : Scaffold) (frag : Content),
        (addContent s frag).writeRaw
          = s.writeRaw ++ (wrapFold (getFixedColumns s) frag 0).map StyledRune.symbol)
      ∧ (addContent ⟨[], 1, 80, face6x14, 1⟩ [plainRune 'a', plainRune 'b']).writeRaw
          = ['a', '\n', 'b']
      ∧ (addContent ⟨[], 1, 80, face6x14, 1⟩ [plainRune 'a', plainRune 'b']).writeRaw
          ≠ ['a', 'b'] := by
  refine ⟨fun s frag => ?_, by decide, by decide⟩
  simp [addContent, Scaffold.writeRaw]

/-- A 10×10 raster whose only non-transparent pixel sits at `(5, 5)`. -/
def oneDotRaster : Raster :=
  ⟨10, 10, fun x y => if x == 5 && y == 5 then (255, 255, 255, 255) else (0, 0, 0, 0)⟩

/-- Claim C1 (divergence witness): on a raster whose only non-transparent
pixel is at `(5, 5)`, the scan tracks `min = max = (5, 5)`, but
`image.Rect(5, 5, 5, 5)` is empty under Go's half-open rectangle
semantics, so the clipped sub-image is the empty 0×0 image — not the 1×1
image containing the pixel that the claim (and the code's own comment
about removing only surrounding transparent pixels) calls for. -/
theorem clip_single_pixel_empty :
    clipScan oneDotRaster = ⟨5, 5, 5, 5⟩
      ∧ clipRect oneDotRaster = ⟨0, 0, 0, 0⟩
      ∧ clipRect oneDotRaster ≠ ⟨5, 5, 6, 6⟩ := by
  decide

/-- A fully transparent 4×3 raster. -/
def allTransparentRaster : Raster := ⟨4, 3, fun _ _ => (0, 0, 0, 0)⟩

/-- Counterexample to claim C2 as stated: on an all-transparent raster the
scan leaves the sentinel accumulator `(MaxInt, MaxInt, 0, 0)` untouched
and the sub-image rectangle is built exactly from those untouched sentinel
bounds — there is no guard branch; the result is the full canvas only
because `image.Rect` canonicalises the swapped corners and `SubImage`
intersects with the canvas bounds. -/
theorem clip_all_transparent_sentinels_used :
    clipScan allTransparentRaster = clipInit
      ∧ clipRect allTransparentRaster
          = rectIntersect
              (mkRect clipInit.minX clipInit.minY clipInit.maxX clipInit.maxY)
              allTransparentRaster.bounds
      ∧ clipRect allTransparentRaster = ⟨0, 0, 4, 3⟩ := by
  decide

theorem foldl_scanPixel_transparent (r : Raster) (l : List (Nat × Nat))
    (h : ∀ p ∈ l, transparentAt r p.1 p.2 = true) :
    ∀ st, l.foldl (scanPixel r) st = st := by
  induction l with
  | nil => intro st; rfl
  | cons p rest ih =>
    intro st
    have hp := h p (List.mem_cons_self p rest)
    simp only [List.foldl_cons, scanPixel, hp, if_pos]
    exact ih (fun q hq => h q (List.mem_cons_of_mem p hq)) st

/-- Claim C2, amended: clipping an all-transparent raster has no explicit
guard branch; the scan leaves the sentinel bounds untouched, and the
sub-image rectangle built from them canonicalises and intersects down to
the full canvas, so the result is nevertheless well-defined. -/
theorem clip_all_transparent_full_canvas (r : Raster)
    (hw : 1 ≤ r.width) (hh : 1 ≤ r.height)
    (hwB : (r.width : Int) ≤ goMaxInt) (hhB : (r.height : Int) ≤ goMaxInt)
    (htr : ∀ x, x < r.width → ∀ y, y < r.height → r.pixel x y = (0, 0, 0, 0)) :
    clipScan r = clipInit ∧ clipRect r = r.bounds := by
  have hscan : clipScan r = clipInit := by
    unfold clipScan
    apply foldl_scanPixel_transparent
    intro p hp
    have hbound : p.1 < r.width ∧ p.2 < r.height := by
      simp only [scanPositions, List.mem_flatMap, List.mem_map, List.mem_range] at hp
      obtain ⟨x, hx, y, hy, rfl⟩ := hp
      exact ⟨hx, hy⟩
    simp [transparentAt, htr _ hbound.1 _ hbound.2]
  refine ⟨hscan, ?_⟩
  unfold clipRect
  rw [hscan]
  show rectIntersect (mkRect clipInit.minX clipInit.minY clipInit.maxX clipInit.maxY)
      r.bounds = r.bounds
  have hmk : mkRect clipInit.minX clipInit.minY clipInit.maxX clipInit.maxY
      = ⟨0, 0, goMaxInt, goMaxInt⟩ := by
    unfold clipInit mkRect goMaxInt
    norm_num
  rw [hmk]
  unfold rectIntersect Raster.bounds
  have hx : min goMaxInt ((r.width : Int)) = (r.width : Int) := min_eq_right hwB
  have hy : min goMaxInt ((r.height : Int)) = (r.height : Int) := min_eq_right hhB
  simp only [hx, hy, max_self, max_eq_right (le_refl (0 : Int))]
  have hempty : rectEmpty ⟨0, 0, (r.width : Int), (r.height : Int)⟩ = false := by
    unfold rectEmpty
    have h1 : ¬((r.width : Int) ≤ 0) := by omega
    have h2 : ¬((r.height : Int) ≤ 0) := by omega
    simp [h1, h2]
  rw [hempty]
  simp

/-- Witness for the amended C2 at the concrete all-transparent raster. -/
theorem clip_all_transparent_full_canvas_witness :
    clipScan allTransparentRaster = clipInit
      ∧ clipRect allTransparentRaster = allTransparentRaster.bounds :=
  clip_all_transparent_full_canvas allTransparentRaster
    (by norm_num [allTransparentRaster]) (by norm_num [allTransparentRaster])
    (by norm_num [goMaxInt, allTransparentRaster])
    (by norm_num [goMaxInt, allTransparentRaster])
    (fun _ _ _ _ => rfl)

theorem trimNewline_of_getLast_ne (l : List Char) (h : l.getLast? ≠ some '\n') :
    trimNewline l = l := by
  unfold trimNewline
  rw [if_neg h]

/-- A scaffold with fixed column width 1 and no prior content. -/
def oneColumnScaffold : Scaffold := ⟨[], 1, 80, face6x14, 1⟩

/-- Counterexample to claim C3 as stated: at column width `W = 1`, a
single `AddContent` call on `3 * W = 3` plain characters appends only one
synthetic `'\n'` (the wrap-triggering rune is appended with the counter
already reset, so the second line holds `W + 1 = 2` runes and never
overflows), and the content measures as 2 lines — not 2 breaks / 3 lines
as the claim asserts for every `W ≥ 1`. -/
theorem wrap_three_chars_one_column :
    (addContent oneColumnScaffold (List.replicate 3 (plainRune 'a'))).symbols.count '\n' = 1
      ∧ (addContent oneColumnScaffold (List.replicate 3 (plainRune 'a'))).contentLines.length
          = 2 := by
  decide

/-- Claim C3, amended: for every fixed column width `W ≥ 2`, a single
`AddContent` call on `3 * W` plain non-newline characters appends exactly
2 synthetic `'\n'` runes, and the resulting content measures as exactly 3
lines (at `W = 1` the call appends only one break, see the
counterexample). -/
theorem addContent_three_w_two_breaks (W : Nat) (frag : Content) (s : Scaffold)
    (hW : 2 ≤ W)
    (hplain : ∀ cr ∈ frag, cr.symbol ≠ '\n')
    (hlen : frag.length = 3 * W)
    (hcols : s.columns = (W : Int))
    (hprior : s.content = []) :
    (addContent s frag).symbols.count '\n' = 2
      ∧ (addContent s frag).contentLines.length = 3 := by
  have hfc : getFixedColumns s = (W : Int) := by
    unfold getFixedColumns
    rw [hcols, if_pos (by exact_mod_cast (by omega : W ≠ 0))]
  have hsym : (addContent s frag).symbols
      = charWrap (W : Int) (frag.map StyledRune.symbol) 0 := by
    unfold addContent Scaffold.symbols
    simp [hprior, hfc, wrapFold_map_symbol]
  set syms := frag.map StyledRune.symbol with hsyms
  have hplain' : ∀ ch ∈ syms, ch ≠ '\n' := by
    intro ch hch
    rw [hsyms] at hch
    simp only [List.mem_map] at hch
    obtain ⟨cr, hcr, rfl⟩ := hch
    exact hplain cr hcr
  have hlen' : syms.length = 3 * W := by
    simp [hsyms, hlen]
  have hmain := charWrap_lines_lengths W syms hplain' 0 (by omega)
  rw [Nat.sub_zero, hlen'] at hmain
  have hcap : capLens W W (3 * W) = [W, W + 1, W - 1] := by
    rw [capLens, if_neg (by omega), afterLens, if_neg (by omega), afterLens,
      if_pos (by omega)]
    have h1 : 3 * W - W - (W + 1) = W - 1 := by omega
    rw [h1]
  rw [hcap] at hmain
  have h3 : (lines1 (charWrap (W : Int) syms 0)).length = 3 := by
    have := congrArg List.length hmain
    simpa using this
  constructor
  · rw [hsym]
    have hlc := lines1_length_eq_count (charWrap (W : Int) syms 0)
    omega
  · have hlast : (charWrap (W : Int) syms 0).getLast? = syms.getLast? :=
      charWrap_getLast? (W : Int) syms 0
    have hsne : syms ≠ [] := by
      intro h
      rw [h] at hlen'
      simp at hlen'
      omega
    obtain ⟨c, hc⟩ : ∃ c, syms.getLast? = some c := by
      cases h : syms.getLast? with
      | none =>
        rw [List.getLast?_eq_none_iff] at h
        exact absurd h hsne
      | some c => exact ⟨c, rfl⟩
    have hcne : c ≠ '\n' := hplain' c (List.mem_of_getLast?_eq_some hc)
    unfold Scaffold.contentLines
    rw [hsym, trimNewline_of_getLast_ne _ (by rw [hlast, hc]; simp [hcne]), h3]

/-- Witness for the amended C3 at `W = 2` on six plain characters. -/
theorem addContent_three_w_two_breaks_witness :
    (addContent ⟨[], ((2 : Nat) : Int), 80, face6x14, 1⟩
        (List.replicate 6 (plainRune 'a'))).symbols.count '\n' = 2
      ∧ (addContent ⟨[], ((2 : Nat) : Int), 80, face6x14, 1⟩
          (List.replicate 6 (plainRune 'a'))).contentLines.length = 3 :=
  addContent_three_w_two_breaks 2 (List.replicate 6 (plainRune 'a'))
    ⟨[], ((2 : Nat) : Int), 80, face6x14, 1⟩
    (by norm_num) (by decide) (by decide) rfl rfl

/-- Claim C9: within a single `AddContent` call of effective width `W` on
plain (newline-free) input longer than `W`, only the first visual line
breaks after exactly `W` runes; every line that begins with a wrapped-over
rune accumulates `W + 1` runes before the next synthetic break, because
the counter is reset to 0 before the triggering rune is appended. -/
theorem wrap_first_line_shorter (W : Nat) (frag : Content)
    (hplain : ∀ cr ∈ frag, cr.symbol ≠ '\n')
    (hlong : W < frag.length) :
    (lines1 ((wrapFold (W : Int) frag 0).map StyledRune.symbol)).map List.length
        = W :: afterLens W (frag.length - W)
      ∧ ∀ x ∈ (afterLens W (frag.length - W)).dropLast, x = W + 1 := by
  have hplain' : ∀ ch ∈ frag.map StyledRune.symbol, ch ≠ '\n' := by
    intro ch hch
    simp only [List.mem_map] at hch
    obtain ⟨cr, hcr, rfl⟩ := hch
    exact hplain cr hcr
  rw [wrapFold_map_symbol]
  have hmain := charWrap_lines_lengths W (frag.map StyledRune.symbol) hplain' 0 (by omega)
  rw [Nat.sub_zero, Nat.cast_zero] at hmain
  have hlen : (frag.map StyledRune.symbol).length = frag.length := by simp
  rw [hlen] at hmain
  constructor
  · rw [hmain, capLens, if_neg (by omega)]
  · exact afterLens_dropLast W (frag.length - W)

/-- Witness for C9 at `W = 2` on five plain runes: line lengths `[2, 3]`. -/
theorem wrap_first_line_shorter_witness :
    (lines1 ((wrapFold ((2 : Nat) : Int) (List.replicate 5 (plainRune 'a')) 0).map
          StyledRune.symbol)).map List.length
        = 2 :: afterLens 2 ((List.replicate 5 (plainRune 'a')).length - 2)
      ∧ ∀ x ∈ (afterLens 2 ((List.replicate 5 (plainRune 'a')).length - 2)).dropLast,
          x = 2 + 1 :=
  wrap_first_line_shorter 2 (List.replicate 5 (plainRune 'a')) (by decide) (by decide)

theorem scanEntries_dup_decomp :
    ∀ (l₁ : List DirEntry) (found : List (List Char × List Char)) (e₁ : DirEntry)
      (l₂ : List DirEntry) (e₂ : DirEntry) (st : List Char),
      st ∈ fontStyles → entryMatches st e₁ = true →
      e₂ ∈ l₂ → entryMatches st e₂ = true →
      ∃ a b c, scanEntries (l₁ ++ e₁ :: l₂) found
          = Except.error (FontErr.duplicate a b c) := by
  intro l₁
  induction l₁ with
  | nil =>
    intro found e₁ l₂ e₂ st hst hm1 hmem hm2
    rw [List.nil_append]
    simp only [scanEntries]
    split
    · rename_i hskip
      simp only [entryMatches, Bool.and_eq_true, Bool.not_eq_true'] at hm1
      simp only [Bool.or_eq_true, Bool.not_eq_true'] at hskip
      rcases hskip with h1 | h2
      · rw [hm1.1.1] at h1; cases h1
      · rw [hm1.1.2] at h2; cases h2
    · cases hss : scanStyles e₁.name fontStyles found with
      | error err =>
        obtain ⟨a, b, c, hc⟩ := scanStyles_error_duplicate e₁.name fontStyles found err hss
        exact ⟨a, b, c, by rw [hc]⟩
      | ok f2 =>
        simp only [entryMatches, Bool.and_eq_true] at hm1
        obtain ⟨v, hv⟩ :=
          scanStyles_registers e₁.name fontStyles found f2 st hst hm1.2 hss
        exact scanEntries_dup l₂ f2 st v e₂ hst hv hmem hm2
  | cons a rest ih =>
    intro found e₁ l₂ e₂ st hst hm1 hmem hm2
    rw [List.cons_append]
    simp only [scanEntries]
    split
    · exact ih found e₁ l₂ e₂ st hst hm1 hmem hm2
    · cases hss : scanStyles a.name fontStyles found with
      | error err =>
        obtain ⟨x, y, z, hc⟩ := scanStyles_error_duplicate a.name fontStyles found err hss
        exact ⟨x, y, z, by rw [hc]⟩
      | ok f2 =>
        exact ih f2 e₁ l₂ e₂ st hst hm1 hmem hm2

/-- Claim C8: font resolution fails with a duplicate-font error whenever
two `.ttf` entries match the same style suffix; when the scan completes,
a style with no matching file yields a missing-font error naming a style
that indeed has no matching entry; and concretely, a directory with only
`Foo-Regular.ttf` and `Foo-Bold.ttf` fails with a missing-font error
naming `Italic`. -/
theorem font_resolution_errors :
    (∀ (dir : List Char) (l₁ l₂ : List DirEntry) (e₁ e₂ : DirEntry) (st : List Char),
        st ∈ fontStyles → entryMatches st e₁ = true →
        e₂ ∈ l₂ → entryMatches st e₂ = true →
        ∃ a b c, loadFontsFromEmbedded (l₁ ++ e₁ :: l₂) dir
            = Except.error (FontErr.duplicate a b c))
      ∧ (∀ (dir : List Char) (entries : List DirEntry)
            (found : List (List Char × List Char)) (st : List Char),
          scanEntries entries [] = Except.ok found →
          st ∈ fontStyles → findStyle st found = none →
          ∃ st', st' ∈ fontStyles ∧ (∀ e ∈ entries, entryMatches st' e = false) ∧
            loadFontsFromEmbedded entries dir = Except.error (FontErr.missing st' dir))
      ∧ loadFontsFromEmbedded
          [⟨"Foo-Regular.ttf".data, false⟩, ⟨"Foo-Bold.ttf".data, false⟩] "fonts".data
          = Except.error (FontErr.missing "Italic".data "fonts".data) := by
  refine ⟨?_, ?_, by rfl⟩
  · intro dir l₁ l₂ e₁ e₂ st hst hm1 hmem hm2
    obtain ⟨a, b, c, hscan⟩ := scanEntries_dup_decomp l₁ [] e₁ l₂ e₂ st hst hm1 hmem hm2
    refine ⟨a, b, c, ?_⟩
    unfold loadFontsFromEmbedded
    rw [hscan]
  · intro dir entries found st hscan hst hnone
    obtain ⟨st', hmem', hnone', hck⟩ :=
      checkMissing_first found dir fontStyles ⟨st, hst, hnone⟩
    refine ⟨st', hmem', ?_, ?_⟩
    · intro e he
      cases hem : entryMatches st' e with
      | false => rfl
      | true =>
        obtain ⟨v, hv⟩ := scanEntries_complete entries [] found st' e hmem' he hem hscan
        rw [hv] at hnone'
        cases hnone'
    · simp only [loadFontsFromEmbedded, hscan, hck]

/-- Witness for C8's duplicate branch: two files both matching `-Bold.ttf`
make resolution fail with a duplicate-font error. -/
theorem font_resolution_errors_witness :
    ∃ a b c,
      loadFontsFromEmbedded
          [⟨"A-Bold.ttf".data, false⟩, ⟨"B-Bold.ttf".data, false⟩] "fonts".data
        = Except.error (FontErr.duplicate a b c) :=
  font_resolution_errors.1 "fonts".data [] [⟨"B-Bold.ttf".data, false⟩]
    ⟨"A-Bold.ttf".data, false⟩ ⟨"B-Bold.ttf".data, false⟩ "Bold".data
    (by decide) (by decide) (by decide) (by decide)

end Termshot
